import Mathlib

/-!
Verification of the scaled-integer fixed-point value type `fixbv`
(`src/myhdl/_fixbv.py`) against its natural-language specification.

The Python class stores an arbitrary-precision integer `si` (the magnitude),
an integer binary-point exponent `shift` (real value = `si * 2^shift`), and an
optional half-open bounds pair `minsi`/`maxsi` expressed in the same scale as
`si`.  We embed the class as a Lean structure and each method as a function.

Conventions of the embedding:
* Python `//` and `%` on integers are floor division and floor modulus, i.e.
  `Int.fdiv` and `Int.fmod`.
* Python `a >> i` on an arbitrary-precision integer is an arithmetic shift,
  i.e. `Int.fdiv a (2 ^ i)`; `a << i` is `a * 2 ^ i`; both raise `ValueError`
  for a negative shift count `i`.
* Python `a & 1` and `a & ((1 << n) - 1)` mask to the low bits of the
  two's-complement representation, i.e. take the nonnegative residue
  `Int.emod a 2` resp. `Int.emod a (2 ^ n)`.  Bitwise or / and / not with
  general (possibly overlapping) operands are embedded literally as
  `Int.lor` / `Int.land` / `Int.lnot`, which implement the same
  two's-complement semantics as Python's `|`, `&`, `~`.
* Exceptions are embedded as an error enumeration; a method that can raise
  returns `Except Err _`, and an in-place mutator returns the post-call state
  together with `Option Err` (the state component reflects what the Python
  object holds after the call, also when an exception was raised).
-/

/-- Errors raised by the `fixbv` code, one constructor per raise site kind.
`invalidBounds` is the `AssertionError` of the constructor's bounds asserts
(the spec's `InvalidBounds`); `outOfRange` is the `ValueError` of
`_handleBounds`; the remaining `ValueError` / `TypeError` /
`ZeroDivisionError` sites are split by the spec's taxonomy. -/
inductive Err where
  | invalidBounds
  | outOfRange
  | invalidBitValue
  | invalidRange
  | valueTooLarge
  | negShiftCount
  | typeErrorNoneArith
  | nonIntegerShift
  | zeroDivision
deriving DecidableEq, Repr

/-- The `fixbv` value: stored integer `si`, scale exponent `shift`
(real value `si * 2^shift`), and the optional bounds pair.
In the Python class either both bounds are `None` or both are set. -/
structure fixbv where
  si : Int
  shift : Int
  minsi : Option Int
  maxsi : Option Int
deriving DecidableEq, Repr

/-- Embeds `alignvalues` from `_fixbv.py:78-97`: rescale the pair with the larger
shift so both share the smaller shift, by exact integer multiplication with
`2^(difference)`.  When the first shift is not the larger one the source
recurses once with the operands swapped and swaps the results back. -/
def alignvalues (a b : Int × Int) : (Int × Int) × (Int × Int) :=
  if b.2 ≤ a.2 then
    ((a.1 * 2 ^ (a.2 - b.2).toNat, b.2), (b.1, b.2))
  else
    let p := alignvalues b a
    (p.2, p.1)
termination_by (if b.2 ≤ a.2 then 0 else 1)
decreasing_by
  rename_i h
  rw [if_pos (le_of_not_le h), if_neg h]
  exact Nat.zero_lt_one

/-- Embeds `calc_nr_bits` from `_fixbv.py:99-109`: the signed two's-complement bit
count of a bound value, `ceil(log2(-val)) + 1` for negatives,
`ceil(log2(val+1)) + 1` for positives and `0` for `0`.  The source computes
the logarithm with `math.log` in IEEE double precision; we model it as the
exact real logarithm (`Nat.clog 2`), which differs from the source for
magnitudes beyond the double mantissa — see claim C5. -/
def calc_nr_bits (val : Int) : Nat :=
  if val = 0 then 0
  else if val < 0 then Nat.clog 2 (-val).toNat + 1
  else Nat.clog 2 (val + 1).toNat + 1

/-- Embeds `fixbv.getnrbits` (`_fixbv.py:173-180`): `0` when the bounds are absent,
otherwise the larger of the bit counts of `minsi` and `maxsi - 1`.
(The class keeps `minsi` and `maxsi` either both absent or both present.) -/
def fixbv.nrbits (x : fixbv) : Nat :=
  match x.minsi, x.maxsi with
  | some mn, some mx => max (calc_nr_bits mn) (calc_nr_bits (mx - 1))
  | _, _ => 0

/-- Embeds `fixbv._handleBounds` (`_fixbv.py:294-301`): when both bounds are present,
raise `ValueError` (out of range) unless `minsi <= si < maxsi`. -/
def fixbv.handleBounds (x : fixbv) : Option Err :=
  match x.minsi, x.maxsi with
  | some mn, some mx => if mn > x.si ∨ x.si ≥ mx then some .outOfRange else none
  | _, _ => none

/-- Embeds `fixbv.__init__` with `rawinit=True` (`_fixbv.py:185-257`): asserts that
either both or neither bound is given, asserts `min < max` when both are
given, stores the fields and ends with `_handleBounds`. -/
def fixbv.new (val shift : Int) (mn mx : Option Int) : Except Err fixbv :=
  match mn, mx with
  | none, none => .ok ⟨val, shift, none, none⟩
  | some _, none => .error .invalidBounds
  | none, some _ => .error .invalidBounds
  | some mn, some mx =>
      if mn < mx then
        let x : fixbv := ⟨val, shift, some mn, some mx⟩
        match x.handleBounds with
        | some e => .error e
        | none => .ok x
      else .error .invalidBounds

/-- Embeds `fixbv.align` (`_fixbv.py:281-292`), for a `fixbv` argument: run
`alignvalues` on the two `(si, shift)` pairs and wrap the results in fresh
bound-less `fixbv` objects. -/
def fixbv.align (x y : fixbv) : fixbv × fixbv :=
  let p := alignvalues (x.si, x.shift) (y.si, y.shift)
  (⟨p.1.1, p.1.2, none, none⟩, ⟨p.2.1, p.2.2, none, none⟩)

/-- The real value represented by a `fixbv`: `si * 2^shift`, as an exact
rational (the binary point may sit to the right of all stored bits). -/
def realval (x : fixbv) : ℚ := (x.si : ℚ) * (2 : ℚ) ^ x.shift

/-- The real value of a raw `(magnitude, shift)` pair. -/
def tupval (p : Int × Int) : ℚ := (p.1 : ℚ) * (2 : ℚ) ^ p.2

/-- Embeds `fixbv.__add__` (`_fixbv.py:421-427`), `fixbv` + `fixbv` path: align,
add the aligned magnitudes, keep the common shift, drop the bounds. -/
def fixbv.add (x y : fixbv) : fixbv :=
  let p := fixbv.align x y
  ⟨p.1.si + p.2.si, p.1.shift, none, none⟩

/-- Embeds `fixbv.__sub__` (`_fixbv.py:431-437`), `fixbv` - `fixbv` path. -/
def fixbv.sub (x y : fixbv) : fixbv :=
  let p := fixbv.align x y
  ⟨p.1.si - p.2.si, p.1.shift, none, none⟩

/-- Embeds `fixbv.__mul__` (`_fixbv.py:444-449`): multiply magnitudes, add shifts,
no alignment needed, bounds dropped. -/
def fixbv.mul (x y : fixbv) : fixbv :=
  ⟨x.si * y.si, x.shift + y.shift, none, none⟩

/-- Embeds `fixbv.__floordiv__` (`_fixbv.py:470-476`): align, floor-divide the
aligned magnitudes, result shift `0`; division by zero raises. -/
def fixbv.floordiv (x y : fixbv) : Except Err fixbv :=
  let p := fixbv.align x y
  if p.2.si = 0 then .error .zeroDivision
  else .ok ⟨p.1.si.fdiv p.2.si, 0, none, none⟩

/-- Embeds `fixbv.__mod__` (`_fixbv.py:484-490`): align, floor-modulus of the
aligned magnitudes at the common shift; modulus by zero raises. -/
def fixbv.mod (x y : fixbv) : Except Err fixbv :=
  let p := fixbv.align x y
  if p.2.si = 0 then .error .zeroDivision
  else .ok ⟨p.1.si.fmod p.2.si, p.1.shift, none, none⟩

/-- Embeds `fixbv.__pow__` (`_fixbv.py:496-507`) for an integer exponent that has
passed the whole-number check: `si^n` at shift `shift * n`.  (A negative
exponent leaves exact integer arithmetic in Python; the claims only use
non-negative exponents, so the exponent is a `Nat` here.) -/
def fixbv.pow (x : fixbv) (n : Nat) : fixbv :=
  ⟨x.si ^ n, x.shift * (n : Int), none, none⟩

/-- Embeds `fixbv.__neg__` (`_fixbv.py:556-557`). -/
def fixbv.neg (x : fixbv) : fixbv := ⟨-x.si, x.shift, none, none⟩

/-- Embeds `fixbv.__abs__` (`_fixbv.py:562-563`). -/
def fixbv.abs (x : fixbv) : fixbv := ⟨|x.si|, x.shift, none, none⟩

/-- Embeds `fixbv.is_integer` (`_fixbv.py:332-344`): whether the real value
`si * 2^shift` is a whole number.  The source computes
`float(self).is_integer()` in IEEE double precision, which its own FIXME
(line 333) and the xfail test `testIsInteger` acknowledge is wrong for large
magnitudes; we model the exact predicate — see claim C6. -/
def fixbv.is_integer (x : fixbv) : Bool :=
  if 0 ≤ x.shift then true
  else decide ((2 : Int) ^ (-x.shift).toNat ∣ x.si)

/-- Embeds `fixbv.__long__` (`_fixbv.py:697-698`): the integer value `si * 2^shift`.
For a negative shift the source goes through a float product; we model the
exact floor value, which agrees with the source whenever the conversion to
float is exact — see claim C6. -/
def fixbv.toIntVal (x : fixbv) : Int :=
  if 0 ≤ x.shift then x.si * 2 ^ x.shift.toNat
  else x.si.fdiv (2 ^ (-x.shift).toNat)

/-- Embeds `fixbv.__lshift__` (`_fixbv.py:586-594`), `fixbv` shift amount: require
an integer-valued amount, then only increase `shift` by it. -/
def fixbv.lshift (x other : fixbv) : Except Err fixbv :=
  if other.is_integer then .ok ⟨x.si, x.shift + other.toIntVal, none, none⟩
  else .error .nonIntegerShift

/-- Embeds `fixbv.__rshift__` (`_fixbv.py:600-608`), `fixbv` shift amount. -/
def fixbv.rshift (x other : fixbv) : Except Err fixbv :=
  if other.is_integer then .ok ⟨x.si, x.shift - other.toIntVal, none, none⟩
  else .error .nonIntegerShift

/-- Embeds `fixbv.__invert__` (`_fixbv.py:644-648`): for a bounded value with
`minsi >= 0` and a nonzero bit count `n`, flip the low `n` bits of `si`
(`~si & ((1 << n) - 1)`, i.e. the residue of `~si` mod `2^n`); otherwise
plain `~si`.  Both branches call the constructor with the value only, so the
result has shift `0` and no bounds. -/
def fixbv.invert (x : fixbv) : fixbv :=
  if x.nrbits ≠ 0 ∧ 0 ≤ x.minsi.getD 0 then
    ⟨(Int.lnot x.si) % (2 ^ x.nrbits), 0, none, none⟩
  else
    ⟨Int.lnot x.si, 0, none, none⟩

/-- Python `(a >> i) & 1 == 1` for an arbitrary-precision integer `a` and a
non-negative shift count `i`: the `i`-th bit of the two's-complement
representation of `a`, extracted by an arithmetic right shift followed by a
mask to the low bit. -/
def pyGetBit (a : Int) (i : Nat) : Bool :=
  decide ((a.fdiv (2 ^ i)) % 2 = 1)

/-- Embeds `fixbv.__getitem__` with an integer key (`_fixbv.py:370-373`): the bit of
`si` at position `key - shift`; a negative position raises `ValueError`
(negative shift count) in `si >> i`. -/
def fixbv.getitem_int (x : fixbv) (key : Int) : Except Err Bool :=
  let i := key - x.shift
  if i < 0 then .error .negShiftCount
  else .ok (pyGetBit x.si i.toNat)

/-- Embeds `fixbv.__getitem__` with a slice key (`_fixbv.py:353-369`).  The source
first computes `key.start - shift` and `key.stop - shift`, so a slice with a
missing bound raises `TypeError` (`None` minus an integer) before the
`is None` default branches can run; with both bounds present it checks
`j >= 0` and `i > j` and returns the field `(si & ((1 << i) - 1)) >> j`
(the mask is modelled as the residue mod `2^i`).  The `intbv` result is
modelled by its stored integer value. -/
def fixbv.getitem_slice (x : fixbv) (start stop : Option Int) : Except Err Int :=
  match start, stop with
  | some i0, some j0 =>
      let i := i0 - x.shift
      let j := j0 - x.shift
      if j < 0 then .error .invalidRange
      else if i ≤ j then .error .invalidRange
      else .ok ((x.si % (2 ^ i.toNat)).fdiv (2 ^ j.toNat))
  | _, _ => .error .typeErrorNoneArith

/-- Embeds `fixbv.__setitem__` with an integer key (`_fixbv.py:403-413`): set or
clear bit `key` of `si` (`si |= 1 << key` / `si &= ~(1 << key)` — note the
source does not offset the key by `shift` here), raise `ValueError` for an
assigned value other than 0 or 1, then re-validate the bounds.  Returns the
post-call state together with the raised error, if any; the state is already
mutated when `_handleBounds` raises. -/
def fixbv.setitem_int (x : fixbv) (key : Int) (v : Int) : fixbv × Option Err :=
  if v = 1 then
    if key < 0 then (x, some .negShiftCount)
    else
      let x' : fixbv := { x with si := Int.lor x.si (2 ^ key.toNat) }
      (x', x'.handleBounds)
  else if v = 0 then
    if key < 0 then (x, some .negShiftCount)
    else
      let x' : fixbv := { x with si := Int.land x.si (Int.lnot (2 ^ key.toNat)) }
      (x', x'.handleBounds)
  else (x, some .invalidBitValue)

/-- Embeds `fixbv.__setitem__` with a slice key (`_fixbv.py:375-402`).  The source
uses the raw slice positions (no `shift` offset).  A missing stop defaults to
`0`; `j < 0` and `i <= j` raise `ValueError`; with a missing start the high
part is replaced, keeping the low `j` bits as remainder
(`si = val * 2^j + si % 2^j`); otherwise the value must fit in `i - j` signed
bits, the target mask is cleared and the shifted value or-ed in.  In every
mutating path the new `si` is stored before `_handleBounds` runs. -/
def fixbv.setitem_slice (x : fixbv) (start stop : Option Int) (v : Int) :
    fixbv × Option Err :=
  let j := stop.getD 0
  if j < 0 then (x, some .invalidRange)
  else
    match start with
    | none =>
        let x' : fixbv := { x with si := v * 2 ^ j.toNat + x.si.fmod (2 ^ j.toNat) }
        (x', x'.handleBounds)
    | some i =>
        if i ≤ j then (x, some .invalidRange)
        else
          let lim : Int := 2 ^ (i - j).toNat
          if lim ≤ v ∨ v < -lim then (x, some .valueTooLarge)
          else
            let mask : Int := (lim - 1) * 2 ^ j.toNat
            let x' : fixbv :=
              { x with si := Int.lor (Int.land x.si (Int.lnot mask)) (v * 2 ^ j.toNat) }
            (x', x'.handleBounds)

lemma alignvalues_eq (m1 s1 m2 s2 : Int) :
    alignvalues (m1, s1) (m2, s2) =
      if s2 ≤ s1 then ((m1 * 2 ^ (s1 - s2).toNat, s2), (m2, s2))
      else ((m1, s1), (m2 * 2 ^ (s2 - s1).toNat, s1)) := by
  rw [alignvalues]
  by_cases h : s2 ≤ s1
  · simp [h]
  · rw [alignvalues]
    simp [h, le_of_not_le h]

lemma tupval_rescale (m s t : Int) (h : t ≤ s) :
    tupval (m * 2 ^ (s - t).toNat, t) = tupval (m, s) := by
  unfold tupval
  have h1 : ((2 : ℚ) ^ (s - t).toNat) = (2 : ℚ) ^ ((s - t) : ℤ) := by
    rw [← zpow_natCast (2 : ℚ) (s - t).toNat, Int.toNat_of_nonneg (by omega)]
  push_cast
  rw [h1, mul_assoc, ← zpow_add₀ (by norm_num : (2 : ℚ) ≠ 0)]
  norm_num

lemma alignvalues_spec (m1 s1 m2 s2 : Int) :
    (alignvalues (m1, s1) (m2, s2)).1.2 = min s1 s2 ∧
    (alignvalues (m1, s1) (m2, s2)).2.2 = min s1 s2 ∧
    tupval (alignvalues (m1, s1) (m2, s2)).1 = tupval (m1, s1) ∧
    tupval (alignvalues (m1, s1) (m2, s2)).2 = tupval (m2, s2) := by
  rw [alignvalues_eq]
  by_cases h : s2 ≤ s1
  · rw [if_pos h]
    exact ⟨(min_eq_right h).symm, (min_eq_right h).symm,
      tupval_rescale m1 s1 s2 h, rfl⟩
  · have h2 : s1 ≤ s2 := le_of_not_le h
    rw [if_neg h]
    exact ⟨(min_eq_left h2).symm, (min_eq_left h2).symm, rfl,
      tupval_rescale m2 s2 s1 h2⟩

/-- C1: for every pair of scaled integers `(m1, s1)` and `(m2, s2)`,
`alignvalues` returns a pair whose two shifts both equal `min s1 s2`, whose
real values `magnitude * 2^shift` equal those of the inputs exactly (as exact
rationals, no floating intermediate), and which returns both operands
unchanged when the shifts are already equal. -/
theorem alignvalues_correct (m1 s1 m2 s2 : Int) :
    (alignvalues (m1, s1) (m2, s2)).1.2 = min s1 s2 ∧
    (alignvalues (m1, s1) (m2, s2)).2.2 = min s1 s2 ∧
    tupval (alignvalues (m1, s1) (m2, s2)).1 = tupval (m1, s1) ∧
    tupval (alignvalues (m1, s1) (m2, s2)).2 = tupval (m2, s2) ∧
    (s1 = s2 → alignvalues (m1, s1) (m2, s2) = ((m1, s1), (m2, s2))) := by
  obtain ⟨h1, h2, h3, h4⟩ := alignvalues_spec m1 s1 m2 s2
  refine ⟨h1, h2, h3, h4, fun hs => ?_⟩
  subst hs
  rw [alignvalues_eq, if_pos le_rfl]
  simp

/-- Witness for C1: at the spec's concrete scenario `(11, -3)` and `(1, -2)`
both results carry shift `-3` and the first magnitude becomes `22`; at equal
shifts (the tie-break hypothesis discharged at shift `7`) the operands are
returned unchanged. -/
theorem alignvalues_correct_witness :
    (alignvalues (11, -3) (1, -2)).1.2 = min (-3) (-2) ∧
    alignvalues ((5 : Int), (7 : Int)) (9, 7) = ((5, 7), (9, 7)) :=
  ⟨(alignvalues_correct 11 (-3) 1 (-2)).1,
   (alignvalues_correct 5 7 9 7).2.2.2.2 rfl⟩

lemma align_realval (x y : fixbv) :
    (fixbv.align x y).1.shift = min x.shift y.shift ∧
    (fixbv.align x y).2.shift = min x.shift y.shift ∧
    realval (fixbv.align x y).1 = realval x ∧
    realval (fixbv.align x y).2 = realval y := by
  have h := alignvalues_spec x.si x.shift y.si y.shift
  exact ⟨h.1, h.2.1, h.2.2.1, h.2.2.2⟩

/-- C2: addition is exact — for every two `fixbv` values, the result of
`__add__`, interpreted as `magnitude * 2^shift`, equals the exact rational
sum of the operands' real values, for all magnitudes and shifts. -/
theorem add_exact (x y : fixbv) :
    realval (fixbv.add x y) = realval x + realval y := by
  obtain ⟨h1, h2, h3, h4⟩ := align_realval x y
  have hsh : (fixbv.align x y).1.shift = (fixbv.align x y).2.shift :=
    h1.trans h2.symm
  have e2 : ((fixbv.align x y).2.si : ℚ) * (2 : ℚ) ^ (fixbv.align x y).1.shift
      = realval y := by rw [hsh]; exact h4
  show (((fixbv.align x y).1.si + (fixbv.align x y).2.si : ℤ) : ℚ) *
      (2 : ℚ) ^ (fixbv.align x y).1.shift = realval x + realval y
  push_cast
  rw [add_mul, ← h3, ← e2]
  rfl

/-- C3: construction fails with `InvalidBounds` when exactly one bound is
given, fails with `InvalidBounds` when both are given and `min >= max`,
fails with `OutOfRange` when the magnitude is outside the half-open interval
`[min, max)` (in particular magnitude `10` with bounds `[0, 10)`), and
succeeds otherwise. -/
theorem new_validation (v s mn mx : Int) :
    fixbv.new v s (some mn) none = .error .invalidBounds ∧
    fixbv.new v s none (some mx) = .error .invalidBounds ∧
    fixbv.new v s none none = .ok ⟨v, s, none, none⟩ ∧
    fixbv.new v s (some mn) (some mx) =
      (if mx ≤ mn then .error .invalidBounds
       else if mn ≤ v ∧ v < mx then .ok ⟨v, s, some mn, some mx⟩
       else .error .outOfRange) ∧
    fixbv.new 10 0 (some 0) (some 10) = .error .outOfRange := by
  refine ⟨rfl, rfl, rfl, ?_, rfl⟩
  have hnew : fixbv.new v s (some mn) (some mx) =
      (if mn < mx then
        match fixbv.handleBounds ⟨v, s, some mn, some mx⟩ with
        | some e => .error e
        | none => .ok ⟨v, s, some mn, some mx⟩
      else .error .invalidBounds) := rfl
  have hb : (fixbv.handleBounds ⟨v, s, some mn, some mx⟩) =
      if mn > v ∨ v ≥ mx then some Err.outOfRange else none := rfl
  rw [hnew, hb]
  by_cases h1 : mn < mx
  · rw [if_pos h1]
    by_cases h2 : mn ≤ v ∧ v < mx
    · rw [if_neg (show ¬(mn > v ∨ v ≥ mx) by omega),
        if_neg (not_le.mpr h1), if_pos h2]
    · rw [if_pos (show mn > v ∨ v ≥ mx by omega),
        if_neg (not_le.mpr h1), if_neg h2]
  · rw [if_neg h1, if_pos (not_lt.mp h1)]

/-- C4: every arithmetic operator — add, subtract, multiply, floor-divide,
modulo, power, left and right shift, negation, absolute value — returns a
fresh value whose bounds are absent (for the fallible operators: whenever
they return a result at all).  The embedding is functional, so the operands
are left untouched by construction. -/
theorem ops_drop_bounds (x y : fixbv) (n : Nat) :
    ((fixbv.add x y).minsi = none ∧ (fixbv.add x y).maxsi = none) ∧
    ((fixbv.sub x y).minsi = none ∧ (fixbv.sub x y).maxsi = none) ∧
    ((fixbv.mul x y).minsi = none ∧ (fixbv.mul x y).maxsi = none) ∧
    (∀ r, fixbv.floordiv x y = .ok r → r.minsi = none ∧ r.maxsi = none) ∧
    (∀ r, fixbv.mod x y = .ok r → r.minsi = none ∧ r.maxsi = none) ∧
    ((fixbv.pow x n).minsi = none ∧ (fixbv.pow x n).maxsi = none) ∧
    (∀ r, fixbv.lshift x y = .ok r → r.minsi = none ∧ r.maxsi = none) ∧
    (∀ r, fixbv.rshift x y = .ok r → r.minsi = none ∧ r.maxsi = none) ∧
    ((fixbv.neg x).minsi = none ∧ (fixbv.neg x).maxsi = none) ∧
    ((fixbv.abs x).minsi = none ∧ (fixbv.abs x).maxsi = none) := by
  refine ⟨⟨rfl, rfl⟩, ⟨rfl, rfl⟩, ⟨rfl, rfl⟩, ?_, ?_, ⟨rfl, rfl⟩, ?_, ?_,
    ⟨rfl, rfl⟩, ⟨rfl, rfl⟩⟩
  · intro r hr
    simp only [fixbv.floordiv] at hr
    split at hr
    · simp at hr
    · simp only [Except.ok.injEq] at hr
      subst hr
      exact ⟨rfl, rfl⟩
  · intro r hr
    simp only [fixbv.mod] at hr
    split at hr
    · simp at hr
    · simp only [Except.ok.injEq] at hr
      subst hr
      exact ⟨rfl, rfl⟩
  · intro r hr
    unfold fixbv.lshift at hr
    split at hr
    · simp only [Except.ok.injEq] at hr
      subst hr
      exact ⟨rfl, rfl⟩
    · simp at hr
  · intro r hr
    unfold fixbv.rshift at hr
    split at hr
    · simp only [Except.ok.injEq] at hr
      subst hr
      exact ⟨rfl, rfl⟩
    · simp at hr

/-- Witness for C4: each fallible operator succeeds at concrete bound-less
operands `3 * 2^0` and `2 * 2^0`, and the bounds of its result are absent. -/
theorem ops_drop_bounds_witness :
    (fixbv.floordiv ⟨3, 0, none, none⟩ ⟨2, 0, none, none⟩ =
        .ok ⟨1, 0, none, none⟩ ∧
      (⟨1, 0, none, none⟩ : fixbv).minsi = none ∧
      (⟨1, 0, none, none⟩ : fixbv).maxsi = none) ∧
    (fixbv.mod ⟨3, 0, none, none⟩ ⟨2, 0, none, none⟩ =
        .ok ⟨1, 0, none, none⟩ ∧
      (⟨1, 0, none, none⟩ : fixbv).minsi = none ∧
      (⟨1, 0, none, none⟩ : fixbv).maxsi = none) ∧
    (fixbv.lshift ⟨3, 0, none, none⟩ ⟨2, 0, none, none⟩ =
        .ok ⟨3, 2, none, none⟩ ∧
      (⟨3, 2, none, none⟩ : fixbv).minsi = none ∧
      (⟨3, 2, none, none⟩ : fixbv).maxsi = none) ∧
    (fixbv.rshift ⟨3, 0, none, none⟩ ⟨2, 0, none, none⟩ =
        .ok ⟨3, -2, none, none⟩ ∧
      (⟨3, -2, none, none⟩ : fixbv).minsi = none ∧
      (⟨3, -2, none, none⟩ : fixbv).maxsi = none) := by
  have hfd : fixbv.floordiv ⟨3, 0, none, none⟩ ⟨2, 0, none, none⟩ =
      .ok ⟨1, 0, none, none⟩ := by
    simp [fixbv.floordiv, fixbv.align, alignvalues_eq]
  have hmd : fixbv.mod ⟨3, 0, none, none⟩ ⟨2, 0, none, none⟩ =
      .ok ⟨1, 0, none, none⟩ := by
    simp [fixbv.mod, fixbv.align, alignvalues_eq]
  have hls : fixbv.lshift ⟨3, 0, none, none⟩ ⟨2, 0, none, none⟩ =
      .ok ⟨3, 2, none, none⟩ := by
    simp [fixbv.lshift, fixbv.is_integer, fixbv.toIntVal]
  have hrs : fixbv.rshift ⟨3, 0, none, none⟩ ⟨2, 0, none, none⟩ =
      .ok ⟨3, -2, none, none⟩ := by
    simp [fixbv.rshift, fixbv.is_integer, fixbv.toIntVal]
  exact
    ⟨⟨hfd, (ops_drop_bounds ⟨3, 0, none, none⟩ ⟨2, 0, none, none⟩ 0).2.2.2.1
        ⟨1, 0, none, none⟩ hfd⟩,
     ⟨hmd, (ops_drop_bounds ⟨3, 0, none, none⟩ ⟨2, 0, none, none⟩ 0).2.2.2.2.1
        ⟨1, 0, none, none⟩ hmd⟩,
     ⟨hls, (ops_drop_bounds ⟨3, 0, none, none⟩ ⟨2, 0, none, none⟩ 0).2.2.2.2.2.2.1
        ⟨3, 2, none, none⟩ hls⟩,
     ⟨hrs, (ops_drop_bounds ⟨3, 0, none, none⟩ ⟨2, 0, none, none⟩ 0).2.2.2.2.2.2.2.1
        ⟨3, -2, none, none⟩ hrs⟩⟩

lemma clog2_eq_succ (k m : ℕ) (h1 : 2 ^ k < m) (h2 : m ≤ 2 ^ (k + 1)) :
    Nat.clog 2 m = k + 1 :=
  le_antisymm ((Nat.le_pow_iff_clog_le one_lt_two).mp h2)
    ((Nat.pow_lt_iff_lt_clog one_lt_two).mp h1)

lemma calc_nr_bits_neg {v : Int} (hv : v < 0) :
    calc_nr_bits v = Nat.clog 2 (-v).toNat + 1 := by
  unfold calc_nr_bits
  rw [if_neg (by omega), if_pos hv]

lemma calc_nr_bits_pos {v : Int} (hv : 0 < v) :
    calc_nr_bits v = Nat.clog 2 (v + 1).toNat + 1 := by
  unfold calc_nr_bits
  rw [if_neg (by omega), if_neg (by omega)]

lemma calc_nr_bits_zero : calc_nr_bits 0 = 0 := rfl

lemma nrbits_some (v s mn mx : Int) :
    fixbv.nrbits ⟨v, s, some mn, some mx⟩ =
      max (calc_nr_bits mn) (calc_nr_bits (mx - 1)) := rfl

/-- C5: the exact bit-width derivation.  With the bound-size logarithm taken
exactly (`Nat.clog 2`, the ceiling base-2 logarithm the source's
`ceil(log(..., 2))` is meant to compute), `nrbits` follows the claimed
formula: bounds `[-4, 4)` give 3 bits, `[-7, 4)` give 4, `[0, 1)` give 0,
the large power-of-two bound `[-2^99, 1)` gives 100 (the repo's own test
value), and the failing input of the float implementation, `calc_nr_bits`
at `2^53` (bounds `[0, 2^53 + 1)`), gives 55 — the source's double-precision
`math.log` collapses `2^53 + 1` to `2^53` and returns 54 there. -/
theorem nrbits_exact_formula :
    fixbv.nrbits ⟨0, 0, some (-4), some 4⟩ = 3 ∧
    fixbv.nrbits ⟨0, 0, some (-7), some 4⟩ = 4 ∧
    fixbv.nrbits ⟨0, 0, some 0, some 1⟩ = 0 ∧
    fixbv.nrbits ⟨0, 0, some (-(2 ^ 99 : Int)), some 1⟩ = 100 ∧
    calc_nr_bits (2 ^ 53) = 55 ∧
    fixbv.nrbits ⟨0, 0, some 0, some (2 ^ 53 + 1)⟩ = 55 := by
  have c4 : Nat.clog 2 4 = 2 := clog2_eq_succ 1 4 (by norm_num) (by norm_num)
  have c53 : Nat.clog 2 (2 ^ 53 + 1) = 54 :=
    clog2_eq_succ 53 _ (by norm_num) (by norm_num)
  have c99 : Nat.clog 2 (2 ^ 99) = 99 :=
    clog2_eq_succ 98 _ (by norm_num) (by norm_num)
  have e53 : calc_nr_bits (2 ^ 53) = 55 := by
    rw [calc_nr_bits_pos (by positivity)]
    have ht : ((2 : Int) ^ 53 + 1).toNat = 2 ^ 53 + 1 := by
      have h := Int.toNat_of_nonneg (show (0 : Int) ≤ 2 ^ 53 + 1 by positivity)
      exact_mod_cast h
    rw [ht, c53]
  refine ⟨?_, ?_, ?_, ?_, e53, ?_⟩
  · rw [nrbits_some, calc_nr_bits_neg (by norm_num),
      calc_nr_bits_pos (by norm_num)]
    rw [show ((-(-4 : Int)).toNat) = 4 from rfl,
      show (((4 : Int) - 1 + 1).toNat) = 4 from rfl, c4]
    decide
  · rw [nrbits_some, calc_nr_bits_neg (by norm_num),
      calc_nr_bits_pos (by norm_num)]
    have c7 : Nat.clog 2 7 = 3 := clog2_eq_succ 2 7 (by norm_num) (by norm_num)
    rw [show ((-(-7 : Int)).toNat) = 7 from rfl,
      show (((4 : Int) - 1 + 1).toNat) = 4 from rfl, c7, c4]
    decide
  · rw [nrbits_some, show ((1 : Int) - 1) = 0 from by norm_num,
      calc_nr_bits_zero]
    rfl
  · rw [nrbits_some, show ((1 : Int) - 1) = 0 from by norm_num,
      calc_nr_bits_zero, calc_nr_bits_neg (by norm_num)]
    have t99 : ((-(-(2 : Int) ^ 99)).toNat) = 2 ^ 99 := by
      rw [neg_neg]
      have h := Int.toNat_of_nonneg (show (0 : Int) ≤ 2 ^ 99 by positivity)
      exact_mod_cast h
    rw [t99, c99]
    decide
  · rw [nrbits_some, show ((2 : Int) ^ 53 + 1 - 1) = 2 ^ 53 from by ring,
      e53, calc_nr_bits_zero]
    rfl

/-- C6: the shift operators in the exact model of the amount conversion.
Shifting `1 * 2^-5` left by `(2^99 + 1) * 2^0` — an amount far beyond the
IEEE double mantissa — keeps the magnitude `1` and yields shift
`-5 + (2^99 + 1)`; and the exact whole-number test rejects the amount
`(2^99 + 1) * 2^-31`, whose value is not an integer.  (The source's
float-based `is_integer` wrongly accepts that amount — its FIXME at line 333
and the xfail test `testIsInteger` record this — and then shifts by the
float-rounded value `2^68`; this is the code bug recorded for this claim.) -/
theorem lshift_exact_example :
    fixbv.lshift ⟨1, -5, none, none⟩ ⟨2 ^ 99 + 1, 0, none, none⟩ =
      .ok ⟨1, -5 + (2 ^ 99 + 1), none, none⟩ ∧
    fixbv.rshift ⟨1, -5, none, none⟩ ⟨2 ^ 99 + 1, 0, none, none⟩ =
      .ok ⟨1, -5 - (2 ^ 99 + 1), none, none⟩ ∧
    fixbv.is_integer ⟨2 ^ 99 + 1, -31, none, none⟩ = false := by
  have hni : ¬ ((2 : Int) ^ 31 ∣ 2 ^ 99 + 1) := by
    intro h
    have h2 : (2 : Int) ^ 31 ∣ 2 ^ 99 := pow_dvd_pow 2 (by norm_num)
    have h3 : (2 : Int) ^ 31 ∣ 1 := (dvd_add_right h2).mp h
    have h4 : (2 : Int) ^ 31 ≤ 1 := Int.le_of_dvd one_pos h3
    norm_num at h4
  refine ⟨?_, ?_, ?_⟩
  · simp [fixbv.lshift, fixbv.is_integer, fixbv.toIntVal]
  · simp [fixbv.rshift, fixbv.is_integer, fixbv.toIntVal]
  · unfold fixbv.is_integer
    rw [if_neg (by norm_num)]
    rw [show ((-(-31 : Int)).toNat) = 31 from rfl]
    exact decide_eq_false hni

lemma pyGetBit_eq_testBit (a : Int) (i : Nat) : pyGetBit a i = a.testBit i := by
  unfold pyGetBit
  rw [Int.fdiv_eq_ediv _ (by positivity)]
  have hcast : ((2 : Int) ^ i) = ((2 ^ i : Nat) : Int) := by push_cast; rfl
  cases a with
  | ofNat n =>
      rw [Int.ofNat_eq_natCast, hcast, ← Int.ofNat_ediv]
      have hm : ((n / 2 ^ i : ℕ) : ℤ) % 2 = ((n / 2 ^ i % 2 : ℕ) : ℤ) := by
        omega
      rw [hm, show Int.testBit (↑n) i = Nat.testBit n i from rfl,
        Nat.testBit_to_div_mod, decide_eq_decide]
      exact_mod_cast Iff.rfl
  | negSucc m =>
      rw [Int.negSucc_ediv _ (by positivity), hcast, ← Int.natCast_ediv]
      have hm : (-(((m / 2 ^ i : ℕ) : ℤ) + 1)) % 2 =
          1 - ((m / 2 ^ i % 2 : ℕ) : ℤ) := by omega
      rw [hm, show Int.testBit (.negSucc m) i = !Nat.testBit m i from rfl,
        Nat.testBit_to_div_mod]
      rcases Nat.mod_two_eq_zero_or_one (m / 2 ^ i) with h | h <;> rw [h] <;>
        simp

lemma int_testBit_two_pow_self (i : Nat) : ((2 : Int) ^ i).testBit i = true := by
  rw [show ((2 : Int) ^ i) = ((2 ^ i : Nat) : Int) from by push_cast; rfl,
    show Int.testBit ((2 ^ i : Nat) : Int) i = Nat.testBit (2 ^ i) i from rfl,
    Nat.testBit_two_pow_self]

lemma pyGetBit_lor_pow (a : Int) (i : Nat) :
    pyGetBit (Int.lor a (2 ^ i)) i = true := by
  rw [pyGetBit_eq_testBit, Int.testBit_lor, int_testBit_two_pow_self]
  simp

lemma pyGetBit_land_lnot_pow (a : Int) (i : Nat) :
    pyGetBit (Int.land a (Int.lnot (2 ^ i))) i = false := by
  rw [pyGetBit_eq_testBit, Int.testBit_land, Int.testBit_lnot,
    int_testBit_two_pow_self]
  simp

/-- C7 counterexample: single-bit set and get do not address the same
logical position when `shift` is nonzero.  On the bound-less value
`0 * 2^-3`, the assignment `x[0] = 1` succeeds and sets raw magnitude bit 0
(magnitude becomes 1), but reading `x[0]` afterwards inspects magnitude bit
`0 - (-3) = 3` and returns `false`, not the written `true`. -/
theorem setget_offset_mismatch :
    (fixbv.setitem_int ⟨0, -3, none, none⟩ 0 1).1 = ⟨1, -3, none, none⟩ ∧
    (fixbv.setitem_int ⟨0, -3, none, none⟩ 0 1).2 = none ∧
    fixbv.getitem_int ⟨1, -3, none, none⟩ 0 = .ok false := by
  refine ⟨by decide, by decide, ?_⟩
  rw [show fixbv.getitem_int ⟨1, -3, none, none⟩ 0 =
      .ok (pyGetBit 1 (3 : Int).toNat) from rfl]
  rw [show pyGetBit 1 (3 : Int).toNat = false from by decide]

/-- C7 amended: the single-bit accessors on a bound-less value.  Get returns
bit `i - shift` of the magnitude; assignment of a value other than 0 or 1
fails with the invalid-bit-value error and leaves the value unchanged; a
successful assignment `x[i] = v` (raw position `i >= 0`) sets or clears raw
magnitude bit `i`, so the bit read back at logical position `i + shift` — not
`i` — equals the written value: the setter does not apply the `shift` offset
that the getter applies, and the two address the same bit only when
`shift = 0`. -/
theorem setget_raw_roundtrip (x : fixbv) (i v : Int)
    (hmn : x.minsi = none) (_hmx : x.maxsi = none) (hi : 0 ≤ i) :
    (v = 1 ∨ v = 0 →
      (fixbv.setitem_int x i v).2 = none ∧
      fixbv.getitem_int (fixbv.setitem_int x i v).1 (i + x.shift) =
        .ok (decide (v = 1))) ∧
    (v ≠ 1 → v ≠ 0 →
      fixbv.setitem_int x i v = (x, some .invalidBitValue)) := by
  constructor
  · intro hv
    have hib : (i + x.shift - x.shift) = i := by ring
    rcases hv with hv | hv <;> subst hv
    · rw [show fixbv.setitem_int x i 1 =
          ({ x with si := Int.lor x.si (2 ^ i.toNat) },
            fixbv.handleBounds { x with si := Int.lor x.si (2 ^ i.toNat) })
          from by rw [fixbv.setitem_int, if_pos rfl, if_neg (not_lt.mpr hi)]]
      refine ⟨by rw [fixbv.handleBounds]; rw [show ({ x with si := Int.lor x.si (2 ^ i.toNat) } : fixbv).minsi = x.minsi from rfl]; rw [hmn], ?_⟩
      rw [fixbv.getitem_int]
      simp only [hib]
      rw [if_neg (not_lt.mpr hi), pyGetBit_lor_pow]
      rfl
    · rw [show fixbv.setitem_int x i 0 =
          ({ x with si := Int.land x.si (Int.lnot (2 ^ i.toNat)) },
            fixbv.handleBounds
              { x with si := Int.land x.si (Int.lnot (2 ^ i.toNat)) })
          from by
            rw [fixbv.setitem_int, if_neg (by norm_num), if_pos rfl,
              if_neg (not_lt.mpr hi)]]
      refine ⟨by rw [fixbv.handleBounds]; rw [show ({ x with si := Int.land x.si (Int.lnot (2 ^ i.toNat)) } : fixbv).minsi = x.minsi from rfl]; rw [hmn], ?_⟩
      rw [fixbv.getitem_int]
      simp only [hib]
      rw [if_neg (not_lt.mpr hi), pyGetBit_land_lnot_pow]
      rfl
  · intro h1 h0
    rw [fixbv.setitem_int, if_neg h1, if_neg h0]

/-- Witness for C7's amended theorem: on `5 * 2^2`, setting raw bit 1 and
reading logical position `1 + 2` returns `true`, and assigning the value 2
fails with the invalid-bit-value error. -/
theorem setget_raw_roundtrip_witness :
    ((fixbv.setitem_int ⟨5, 2, none, none⟩ 1 1).2 = none ∧
      fixbv.getitem_int (fixbv.setitem_int ⟨5, 2, none, none⟩ 1 1).1 (1 + 2) =
        .ok true) ∧
    fixbv.setitem_int ⟨5, 2, none, none⟩ 1 2 =
      (⟨5, 2, none, none⟩, some .invalidBitValue) := by
  constructor
  · have h := (setget_raw_roundtrip ⟨5, 2, none, none⟩ 1 1 rfl rfl
      (by norm_num)).1 (Or.inl rfl)
    simpa using h
  · exact (setget_raw_roundtrip ⟨5, 2, none, none⟩ 1 2 rfl rfl
      (by norm_num)).2 (by norm_num) (by norm_num)

/-- C8: open-ended slice access.  Reading `x[:low]` always raises `TypeError`
on the source: line 355 computes `key.start - self.shift` before the
`is None` default branch (line 362) can run, so that branch is unreachable —
while the claimed quotient/remainder write through `x[:low]` does work:
writing 7 above bit 2 of magnitude 11 (binary 1011) yields
`7 * 4 + (11 mod 4) = 31` with no error, and a bounded open-slice write
re-validates the bounds (writing 3 above bit 2 of `1` under bounds `[0, 8)`
commits magnitude 13 and raises the out-of-range error). -/
theorem openslice_behavior :
    (∀ (x : fixbv) (low : Int),
      fixbv.getitem_slice x none (some low) = .error .typeErrorNoneArith) ∧
    (fixbv.setitem_slice ⟨11, 0, none, none⟩ none (some 2) 7).1 =
      ⟨31, 0, none, none⟩ ∧
    (fixbv.setitem_slice ⟨11, 0, none, none⟩ none (some 2) 7).2 = none ∧
    (fixbv.setitem_slice ⟨1, 0, some 0, some 8⟩ none (some 2) 3).1 =
      ⟨13, 0, some 0, some 8⟩ ∧
    (fixbv.setitem_slice ⟨1, 0, some 0, some 8⟩ none (some 2) 3).2 =
      some .outOfRange :=
  ⟨fun _ _ => rfl, by decide, by decide, by decide, by decide⟩

/-- C9 counterexample: a failed mutation is not rolled back.  On
`0 * 2^0` bounded to `[0, 4)`, the single-bit assignment `x[2] = 1` raises
the out-of-range error, yet the stored magnitude observable after the
failure is the new value 4, not the pre-call value 0. -/
theorem failed_setitem_not_rolled_back :
    (fixbv.setitem_int ⟨0, 0, some 0, some 4⟩ 2 1).2 = some .outOfRange ∧
    (fixbv.setitem_int ⟨0, 0, some 0, some 4⟩ 2 1).1.si = 4 ∧
    (fixbv.setitem_int ⟨0, 0, some 0, some 4⟩ 2 1).1.si ≠ 0 :=
  ⟨by decide, by decide, by decide⟩

lemma handleBounds_iff (y : fixbv) (mn mx : Int)
    (hmn : y.minsi = some mn) (hmx : y.maxsi = some mx) :
    (y.handleBounds = some .outOfRange ↔ (y.si < mn ∨ mx ≤ y.si)) := by
  unfold fixbv.handleBounds
  rw [hmn, hmx]
  show (if mn > y.si ∨ y.si ≥ mx then some Err.outOfRange else none) =
      some Err.outOfRange ↔ _
  by_cases h : mn > y.si ∨ y.si ≥ mx
  · rw [if_pos h]
    exact ⟨fun _ => h, fun _ => rfl⟩
  · rw [if_neg h]
    exact ⟨fun hc => absurd hc (by simp), fun hc => absurd hc h⟩

/-- C9 amended: the mutators follow a mutate-then-validate discipline, not
copy-validate-commit.  For a bounded value, a single-bit assignment of 0 or 1
at a non-negative raw position, and an open-ended slice assignment, always
commit the candidate magnitude to the instance first; the out-of-range error
is raised exactly when that already-stored new magnitude violates the
bounds, so after a failure the observable magnitude is the new one, not the
pre-call one. -/
theorem setitem_commits_candidate (x : fixbv) (i v w mn mx : Int)
    (hmn : x.minsi = some mn) (hmx : x.maxsi = some mx)
    (hi : 0 ≤ i) (hv : v = 1 ∨ v = 0) :
    ((fixbv.setitem_int x i v).1.si =
      (if v = 1 then Int.lor x.si (2 ^ i.toNat)
       else Int.land x.si (Int.lnot (2 ^ i.toNat)))) ∧
    ((fixbv.setitem_int x i v).2 = some .outOfRange ↔
      ((fixbv.setitem_int x i v).1.si < mn ∨
        mx ≤ (fixbv.setitem_int x i v).1.si)) ∧
    ((fixbv.setitem_slice x none (some i) w).1.si =
      w * 2 ^ i.toNat + x.si.fmod (2 ^ i.toNat)) ∧
    ((fixbv.setitem_slice x none (some i) w).2 = some .outOfRange ↔
      ((fixbv.setitem_slice x none (some i) w).1.si < mn ∨
        mx ≤ (fixbv.setitem_slice x none (some i) w).1.si)) := by
  have hslice : fixbv.setitem_slice x none (some i) w =
      ({ x with si := w * 2 ^ i.toNat + x.si.fmod (2 ^ i.toNat) },
        fixbv.handleBounds
          { x with si := w * 2 ^ i.toNat + x.si.fmod (2 ^ i.toNat) }) := by
    rw [fixbv.setitem_slice]
    rw [show ((some i).getD 0) = i from rfl, if_neg (not_lt.mpr hi)]
  have hbit : fixbv.setitem_int x i v =
      (if v = 1 then
        ({ x with si := Int.lor x.si (2 ^ i.toNat) },
          fixbv.handleBounds { x with si := Int.lor x.si (2 ^ i.toNat) })
       else
        ({ x with si := Int.land x.si (Int.lnot (2 ^ i.toNat)) },
          fixbv.handleBounds
            { x with si := Int.land x.si (Int.lnot (2 ^ i.toNat)) })) := by
    rcases hv with hv | hv <;> subst hv
    · rw [fixbv.setitem_int, if_pos rfl, if_neg (not_lt.mpr hi), if_pos rfl]
    · rw [fixbv.setitem_int, if_neg (by norm_num), if_pos rfl,
        if_neg (not_lt.mpr hi), if_neg (by norm_num)]
  refine ⟨?_, ?_, ?_, ?_⟩
  · rw [hbit]
    rcases hv with hv | hv <;> subst hv
    · rw [if_pos rfl, if_pos rfl]
    · rw [if_neg (by norm_num), if_neg (by norm_num)]
  · rw [hbit]
    rcases hv with hv | hv <;> subst hv
    · rw [if_pos rfl]
      exact handleBounds_iff _ mn mx hmn hmx
    · rw [if_neg (by norm_num)]
      exact handleBounds_iff _ mn mx hmn hmx
  · rw [hslice]
  · rw [hslice]
    exact handleBounds_iff _ mn mx hmn hmx

/-- Witness for C9's amended theorem at the counterexample-style inputs: the
failing bit assignment commits magnitude 4 and reports out-of-range, and the
failing open-slice assignment commits magnitude `5 * 4 + 1 = 21`. -/
theorem setitem_commits_candidate_witness :
    (fixbv.setitem_int ⟨1, 0, some 0, some 4⟩ 2 1).1.si = 5 ∧
    (fixbv.setitem_int ⟨1, 0, some 0, some 4⟩ 2 1).2 = some .outOfRange ∧
    (fixbv.setitem_slice ⟨1, 0, some 0, some 4⟩ none (some 2) 5).1.si = 21 ∧
    (fixbv.setitem_slice ⟨1, 0, some 0, some 4⟩ none (some 2) 5).2 =
      some .outOfRange := by
  have h := setitem_commits_candidate ⟨1, 0, some 0, some 4⟩ 2 1 5 0 4
    rfl rfl (by norm_num) (Or.inl rfl)
  have hb : (fixbv.setitem_int ⟨1, 0, some 0, some 4⟩ 2 1).1.si = 5 := by
    rw [h.1, if_pos rfl]
    decide
  have hs : (fixbv.setitem_slice ⟨1, 0, some 0, some 4⟩ none (some 2) 5).1.si
      = 21 := by
    rw [h.2.2.1]
    decide
  exact ⟨hb, h.2.1.mpr (by rw [hb]; decide), hs, h.2.2.2.mpr (by rw [hs]; decide)⟩

lemma lnot_eq (a : Int) : Int.lnot a = -a - 1 := by
  cases a with
  | ofNat n =>
      show Int.negSucc n = -(Int.ofNat n) - 1
      rw [Int.negSucc_eq, Int.ofNat_eq_natCast]
      ring
  | negSucc m =>
      show (Int.ofNat m) = -(Int.negSucc m) - 1
      rw [Int.negSucc_eq, Int.ofNat_eq_natCast]
      ring

lemma lnot_emod_two_pow {si : Int} {n : Nat} (h0 : 0 ≤ si) (h1 : si < 2 ^ n) :
    (Int.lnot si) % (2 ^ n) = 2 ^ n - 1 - si := by
  rw [lnot_eq]
  have key := Int.add_mul_emod_self_left (-si - 1) ((2 : Int) ^ n) 1
  rw [mul_one] at key
  rw [← key, Int.emod_eq_of_lt (by linarith) (by linarith)]
  ring

lemma lt_two_pow_calc {v : Int} (h0 : 0 ≤ v) : v < 2 ^ calc_nr_bits v := by
  rcases eq_or_lt_of_le h0 with h | h
  · rw [← h]
    positivity
  · rw [calc_nr_bits_pos h]
    have h1 : (v + 1).toNat ≤ 2 ^ Nat.clog 2 (v + 1).toNat :=
      Nat.le_pow_clog one_lt_two _
    have h2 : v + 1 ≤ (2 : Int) ^ Nat.clog 2 (v + 1).toNat := by
      have hc : (((v + 1).toNat : ℕ) : ℤ) = v + 1 :=
        Int.toNat_of_nonneg (by omega)
      calc v + 1 = (((v + 1).toNat : ℕ) : ℤ) := hc.symm
        _ ≤ ((2 ^ Nat.clog 2 (v + 1).toNat : ℕ) : ℤ) := by exact_mod_cast h1
        _ = (2 : Int) ^ Nat.clog 2 (v + 1).toNat := by push_cast; rfl
    have h3 : (2 : Int) ^ Nat.clog 2 (v + 1).toNat ≤
        2 ^ (Nat.clog 2 (v + 1).toNat + 1) := by
      rw [pow_succ]
      have hp : (0 : Int) < 2 ^ Nat.clog 2 (v + 1).toNat := by positivity
      linarith
    linarith

/-- C10: unary invert never fails, and always returns a bound-less value
with shift 0 regardless of the operand's shift.  For an in-range operand
with bounds present, `min >= 0` and a nonzero bit count `n`, the result
magnitude is `(2^n - 1) - magnitude` (the two's-complement bit flip within
`n` bits); for every other operand — bounds absent, negative `min`, or bit
count 0 — it is `-magnitude - 1`. -/
theorem invert_spec (x : fixbv) :
    (fixbv.invert x).shift = 0 ∧
    (fixbv.invert x).minsi = none ∧
    (fixbv.invert x).maxsi = none ∧
    (∀ mn mx, x.minsi = some mn → x.maxsi = some mx → 0 ≤ mn →
      mn ≤ x.si → x.si < mx → x.nrbits ≠ 0 →
      (fixbv.invert x).si = 2 ^ x.nrbits - 1 - x.si) ∧
    ((x.minsi = none ∨ (∃ mn, x.minsi = some mn ∧ mn < 0) ∨ x.nrbits = 0) →
      (fixbv.invert x).si = -x.si - 1) := by
  have hstruct : (fixbv.invert x).shift = 0 ∧ (fixbv.invert x).minsi = none ∧
      (fixbv.invert x).maxsi = none := by
    unfold fixbv.invert
    split <;> exact ⟨rfl, rfl, rfl⟩
  refine ⟨hstruct.1, hstruct.2.1, hstruct.2.2, ?_, ?_⟩
  · intro mn mx hmn hmx h0 hlo hhi hn
    have hguard : x.nrbits ≠ 0 ∧ 0 ≤ x.minsi.getD 0 :=
      ⟨hn, by rw [hmn]; exact h0⟩
    rw [show fixbv.invert x =
        ⟨(Int.lnot x.si) % (2 ^ x.nrbits), 0, none, none⟩ from by
      rw [fixbv.invert, if_pos hguard]]
    show (Int.lnot x.si) % (2 ^ x.nrbits) = 2 ^ x.nrbits - 1 - x.si
    apply lnot_emod_two_pow (le_trans h0 hlo)
    have hmx1 : (0 : Int) ≤ mx - 1 := by omega
    have hv : mx - 1 < 2 ^ calc_nr_bits (mx - 1) := lt_two_pow_calc hmx1
    have hnr : x.nrbits = max (calc_nr_bits mn) (calc_nr_bits (mx - 1)) := by
      unfold fixbv.nrbits
      rw [hmn, hmx]
    have hmono : (2 : Int) ^ calc_nr_bits (mx - 1) ≤ 2 ^ x.nrbits := by
      rw [hnr]
      exact pow_le_pow_right₀ (by norm_num) (le_max_right _ _)
    have hle : x.si ≤ mx - 1 := by omega
    linarith
  · intro hcase
    have hguard : ¬(x.nrbits ≠ 0 ∧ 0 ≤ x.minsi.getD 0) := by
      rcases hcase with h | ⟨mn, hmn, hneg⟩ | h
      · rintro ⟨hn, _⟩
        apply hn
        unfold fixbv.nrbits
        rw [h]
      · rintro ⟨_, hge⟩
        rw [hmn] at hge
        simp only [Option.getD_some] at hge
        omega
      · rintro ⟨hn, _⟩
        exact hn h
    rw [show fixbv.invert x = ⟨Int.lnot x.si, 0, none, none⟩ from by
      rw [fixbv.invert, if_neg hguard]]
    show Int.lnot x.si = -x.si - 1
    exact lnot_eq x.si

/-- Witness for C10: on `2 * 2^5` bounded to `[0, 4)` (3 bits) the invert
result has shift 0, no bounds and magnitude `2^3 - 1 - 2 = 5`; on the
bound-less `7 * 2^0` it has magnitude `-7 - 1 = -8`. -/
theorem invert_spec_witness :
    (fixbv.invert ⟨2, 5, some 0, some 4⟩).shift = 0 ∧
    (fixbv.invert ⟨2, 5, some 0, some 4⟩).minsi = none ∧
    (fixbv.invert ⟨2, 5, some 0, some 4⟩).si = 5 ∧
    (fixbv.invert ⟨7, 0, none, none⟩).si = -8 := by
  have hn : (⟨2, 5, some 0, some 4⟩ : fixbv).nrbits = 3 := by
    rw [nrbits_some, calc_nr_bits_zero, calc_nr_bits_pos (by norm_num),
      show (((4 : Int) - 1 + 1).toNat) = 4 from rfl,
      clog2_eq_succ 1 4 (by norm_num) (by norm_num)]
    decide
  have h := invert_spec ⟨2, 5, some 0, some 4⟩
  have h2 := invert_spec ⟨7, 0, none, none⟩
  refine ⟨h.1, h.2.1, ?_, ?_⟩
  · have hv := h.2.2.2.1 0 4 rfl rfl le_rfl (by norm_num) (by norm_num)
      (by rw [hn]; norm_num)
    rw [hv, hn]
    decide
  · have hv := h2.2.2.2.2 (Or.inl rfl)
    rw [hv]
    decide
